import Mathlib

/-!
Shallow embedding of the repository's bit array
(`src/include/dm/ng/datastructures/bitarray.h`) and of the sparse-set
storage routines (`src/include/dm/datastructures/set.h`).

Machine integers are modelled as `Nat` with an explicit `% 2 ^ 64`
(for `uint64_t`) or `% 2 ^ 32` (for `uint32_t`) wherever the C
computation can overflow or wrap.  The word buffer `bits()` is modelled
as a function from word index to word value; C's in-place stores become
functional updates.  Loops become fuel-indexed structural recursions
whose fuel is the loop bound.
-/

namespace DM

/-- `UINT64_MAX`, the all-ones 64-bit word. -/
def wordMax : Nat := 2 ^ 64 - 1

/-- Fuel-indexed scan used by `cnttz_u64`: returns the first position
`p ≥ pos` (searching `fuel` positions) whose bit of `v` is set, or
`pos + fuel` if none is. -/
def ctzAux (v : Nat) : Nat → Nat → Nat
  | pos, 0 => pos
  | pos, fuel + 1 => if (v >>> pos) % 2 = 1 then pos else ctzAux v (pos + 1) fuel

/-- Modelled from the spec: `cnttz_u64` comes from `dm/ng/bitops.h`, which is
not under `src/`.  Per the spec's description of `setFirst` ("locates the
lowest unset bit"), it is the count-trailing-zeros intrinsic on a 64-bit
word (64 for input 0). -/
def cnttz_u64 (v : Nat) : Nat := ctzAux v 0 64

/-- Fuel-indexed scan used by `cntlz_u64`: checks bits `n-1, n-2, …, 0`
of `v` from the top and returns `63 - (highest set position)`. -/
def clzAux (v : Nat) : Nat → Nat
  | 0 => 64
  | n + 1 => if (v >>> n) % 2 = 1 then 63 - n else clzAux v n

/-- Modelled from the spec: `cntlz_u64` comes from `dm/ng/bitops.h`, which is
not under `src/`.  It is the count-leading-zeros intrinsic on a 64-bit
word (64 for input 0). -/
def cntlz_u64 (v : Nat) : Nat := clzAux v 64

/-- Modelled from the spec: `cntbits_u64` comes from `dm/ng/bitops.h`, which
is not under `src/`.  Per the spec ("population count across all words
(sum of per-word set-bit counts)"), it is the 64-bit population count. -/
def cntbits_u64 (v : Nat) : Nat := ∑ b ∈ Finset.range 64, if v.testBit b then 1 else 0

/-- State of `BitArrayImpl` (bitarray.h lines 16-320) over an initialized
storage: the word buffer `bits()`, the cursor `m_last` (line 319), and the
storage accessors `max()` and `numSlots()` flattened into fields. -/
structure BitArray where
  bits : Nat → Nat
  m_last : Nat
  m_max : Nat
  m_numSlots : Nat

/-- Store `v` into word `i` of the buffer (C's `bits()[i] = v`). -/
def writeWord (f : Nat → Nat) (i v : Nat) : Nat → Nat :=
  fun j => if j = i then v else f j

/-- `memset(bits()+start, fill, n*sizeof(uint64_t))` at word granularity:
words `start, …, start+n-1` all become `fill`. -/
def memset64 (f : Nat → Nat) (start n fill : Nat) : Nat → Nat :=
  fun j => if start ≤ j ∧ j < start + n then fill else f j

/-- `BitArrayStorageExt::numSlotsFor` (bitarray.h lines 346-349):
`((_max-1)>>6) + 1` in `uint32_t` arithmetic.  `BitArrayStorage::numSlotsFor`
(lines 394-397) and the compile-time `BitArrayStorageT::NumSlots`
(line 340) are the same expression. -/
def numSlotsFor (m : Nat) : Nat :=
  ((((m + (2 ^ 32 - 1)) % 2 ^ 32) >>> 6) + 1) % 2 ^ 32

/-- A freshly initialized-and-`reset()` array of capacity `M` (bitarray.h
lines 312-316 after `init`): every word zero, `m_last = 0`,
`m_numSlots = numSlotsFor M`. -/
def resetState (M : Nat) : BitArray :=
  ⟨fun _ => 0, 0, M, numSlotsFor M⟩

/-- `BitArrayImpl::isSet` (bitarray.h lines 148-155). -/
def isSet (s : BitArray) (i : Nat) : Bool :=
  decide (0 ≠ s.bits (i >>> 6) &&& (1 <<< (i &&& 63)))

/-- The `valBegin` smear of `setRange`/`unsetRange` (bitarray.h lines 68-74):
six OR-shift steps spreading the seed bit toward bit 0. -/
def smearDown (v : Nat) : Nat :=
  let v1 := v ||| (v >>> 1)
  let v2 := v1 ||| (v1 >>> 2)
  let v3 := v2 ||| (v2 >>> 4)
  let v4 := v3 ||| (v3 >>> 8)
  let v5 := v4 ||| (v4 >>> 16)
  v5 ||| (v5 >>> 32)

/-- The `valEnd` smear of `setRange`/`unsetRange` (bitarray.h lines 78-84):
six OR-shift steps spreading the seed bit toward bit 63; each left shift
is a `uint64_t` shift, hence the `% 2 ^ 64`. -/
def smearUp (v : Nat) : Nat :=
  let v1 := v ||| ((v <<< 1) % 2 ^ 64)
  let v2 := v1 ||| ((v1 <<< 2) % 2 ^ 64)
  let v3 := v2 ||| ((v2 <<< 4) % 2 ^ 64)
  let v4 := v3 ||| ((v3 <<< 8) % 2 ^ 64)
  let v5 := v4 ||| ((v4 <<< 16) % 2 ^ 64)
  v5 ||| ((v5 <<< 32) % 2 ^ 64)

/-- `BitArrayImpl::setRange` (bitarray.h lines 59-94), exactly as written:
OR `smearDown` of the begin bit into word `_begin>>6`, OR `smearUp` of the
end bit into word `_end>>6`, `memset` words `[_begin>>6, _end>>6)` to
all-ones, and set `m_last` to `_end` when `_begin <= m_last <= _end`. -/
def setRange (s : BitArray) (b e : Nat) : BitArray :=
  let bucketBegin := b >>> 6
  let bucketEnd := e >>> 6
  let valBegin := smearDown (1 <<< (b &&& 63))
  let bits1 := writeWord s.bits bucketBegin (s.bits bucketBegin ||| valBegin)
  let valEnd := smearUp (1 <<< (e &&& 63))
  let bits2 := writeWord bits1 bucketEnd (bits1 bucketEnd ||| valEnd)
  let bits3 := memset64 bits2 bucketBegin (bucketEnd - bucketBegin) wordMax
  { s with
      bits := bits3
      m_last := if b ≤ s.m_last ∧ s.m_last ≤ e then e else s.m_last }

/-- `BitArrayImpl::unsetRange` (bitarray.h lines 96-128): AND-NOT of the two
smeared masks into the boundary words, `memset` words
`[_begin>>6, _end>>6)` to zero, and `m_last = _begin` unconditionally. -/
def unsetRange (s : BitArray) (b e : Nat) : BitArray :=
  let bucketBegin := b >>> 6
  let bucketEnd := e >>> 6
  let valBegin := smearDown (1 <<< (b &&& 63))
  let bits1 := writeWord s.bits bucketBegin (s.bits bucketBegin &&& (valBegin ^^^ wordMax))
  let valEnd := smearUp (1 <<< (e &&& 63))
  let bits2 := writeWord bits1 bucketEnd (bits1 bucketEnd &&& (valEnd ^^^ wordMax))
  let bits3 := memset64 bits2 bucketBegin (bucketEnd - bucketBegin) 0
  { s with
      bits := bits3
      m_last := b }

/-- The forward scan of `setFirst` (bitarray.h lines 172-179): starting at
word `start` and examining `fuel` words, return the first word index whose
word is not all-ones, or `none`. -/
def scanNotFull (bits : Nat → Nat) : Nat → Nat → Option Nat
  | _, 0 => none
  | start, fuel + 1 =>
    if bits start ≠ wordMax then some start else scanNotFull bits (start + 1) fuel

/-- `BitArrayImpl::setRightmostBit` (bitarray.h lines 158-167): OR
`bits()[_slot] + 1` into the word (which sets its lowest unset bit), and
return the global index of that bit clamped to `max()`; index arithmetic
is `uint32_t`. -/
def setRightmostBit (s : BitArray) (slot : Nat) : BitArray × Nat :=
  let rightmost := (s.bits slot + 1) % 2 ^ 64
  let bits2 := writeWord s.bits slot (s.bits slot ||| rightmost)
  let pos := cnttz_u64 rightmost
  let idx := ((slot <<< 6) + pos) % 2 ^ 32
  ({ s with bits := bits2 }, if idx < s.m_max then idx else s.m_max)

/-- `BitArrayImpl::setFirst` (bitarray.h lines 170-182). -/
def setFirst (s : BitArray) : BitArray × Nat :=
  match scanNotFull s.bits 0 s.m_numSlots with
  | some slot => setRightmostBit s slot
  | none => (s, s.m_max)

/-- `BitArrayImpl::markFirstUnsetBit` (bitarray.h lines 40-48):
`~v & (v+1)` on a `uint64_t`. -/
def markFirstUnsetBit (v : Nat) : Nat :=
  (v ^^^ wordMax) &&& ((v + 1) % 2 ^ 64)

/-- The backward scan of `getLastSetBit` (bitarray.h line 255,
`for (uint32_t ii = numSlots(); ii--; )`): examining words
`n-1, n-2, …, 0`, return the first (highest) word index whose word is
nonzero, or `none`. -/
def scanDownNonzero (bits : Nat → Nat) : Nat → Option Nat
  | 0 => none
  | n + 1 => if bits n ≠ 0 then some n else scanDownNonzero bits n

/-- `BitArrayImpl::getLastSetBit` (bitarray.h lines 253-276).  The returned
index is computed in `uint32_t`; `63 - uint32_t(leading)` is the wrapping
`uint32_t` subtraction. -/
def getLastSetBit (s : BitArray) : Nat :=
  match scanDownNonzero s.bits s.m_numSlots with
  | none => 0
  | some ii =>
    if s.bits ii = wordMax then
      ((ii + 1) <<< 6) % 2 ^ 32
    else
      let sel := markFirstUnsetBit (s.bits ii)
      let leading := cntlz_u64 sel
      let pos := (63 + 2 ^ 32 - leading) % 2 ^ 32
      ((ii <<< 6) + pos) % 2 ^ 32

/-- `BitArrayImpl::doCount` (bitarray.h lines 294-304): sum of per-word
population counts over all `numSlots()` words (the loop order is
irrelevant for `+`), accumulated in `uint64_t` — which cannot wrap, since
the sum is at most `64 * (2^32 - 1)` — and truncated to `uint32_t` on
return. -/
def doCount (s : BitArray) : Nat :=
  (∑ ii ∈ Finset.range s.m_numSlots, cntbits_u64 (s.bits ii)) % 2 ^ 32

/-- The number of indices `i` in `[0, max())` for which `isSet(i)` is true
(the reference count the spec compares `doCount()` against). -/
def countTrue (s : BitArray) : Nat :=
  ((Finset.range s.m_max).filter (fun i => isSet s i = true)).card

/-- The state after `k` successive `setFirst()` calls on a freshly reset
array of capacity `M`. -/
def stateAfter (M : Nat) : Nat → BitArray
  | 0 => resetState M
  | k + 1 => (setFirst (stateAfter M k)).1

/-- `Set::SizePerElement` (set.h line 86): `2*sizeof(uint16_t)` bytes. -/
def Set_SizePerElement : Nat := 2 * 2

/-- `Set::sizeFor` (set.h lines 89-92): `_max*SizePerElement` in `uint32_t`. -/
def Set_sizeFor (mx : Nat) : Nat := (mx * Set_SizePerElement) % 2 ^ 32

/-- `Set::init(_max, _mem, _allocator)` (set.h lines 95-106), address part:
with `_mem` at byte address `mem`, it sets `m_values = _mem`,
`m_indices = m_values + _max` (i.e. byte address `mem + 2*_max`, as the
elements are 16-bit), and returns `_mem + sizeFor(_max)`.  The result is
`(values address, indices address, returned end address)`. -/
def Set_initExt (mx mem : Nat) : Nat × Nat × Nat :=
  (mem, mem + 2 * mx, mem + Set_sizeFor mx)

/-- The fields of `dm::Set` (set.h lines 140-150) that `destroy()` touches:
the buffer pointer `m_values`, the derived pointer `m_indices` (`none`
models `NULL`), and the ownership flag `m_cleanup`. -/
structure SetState where
  m_values : Option Nat
  m_indices : Option Nat
  m_cleanup : Bool

/-- `Set::destroy` (set.h lines 108-116).  The Bool records whether
`BX_FREE` was invoked on this call. -/
def Set_destroy (s : SetState) : SetState × Bool :=
  if s.m_cleanup = true ∧ s.m_values ≠ none then
    ({ s with m_values := none, m_indices := none }, true)
  else (s, false)

/-- The fields of `dm::ng::BitArrayStorage` (bitarray.h lines 446-449)
that `destroy()` touches: the buffer pointer `m_bits` (`none` models
`NULL`). -/
structure BitArrayStorageSt where
  m_bits : Option Nat
  m_numSlots : Nat
  m_max : Nat

/-- `BitArrayStorage::destroy` (bitarray.h lines 422-429).  The Bool
records whether `dm_free` was invoked on this call. -/
def BitArrayStorage_destroy (s : BitArrayStorageSt) : BitArrayStorageSt × Bool :=
  if s.m_bits ≠ none then ({ s with m_bits := none }, true) else (s, false)

/-- `BitArrayStorageExt::sizeFor` (bitarray.h lines 351-354):
`numSlotsFor(_max)*sizeof(uint64_t)` in `uint32_t`. -/
def bitarray_sizeFor (mx : Nat) : Nat := (numSlotsFor mx * 8) % 2 ^ 32

/-- `BitArrayStorageExt::init` (bitarray.h lines 363-370), address part:
with `_mem` at byte address `mem` it claims `sizeFor(_max)` bytes and
returns `_mem + sizeFor(_max)` (it also sets `m_bits = _mem`,
`m_numSlots = numSlotsFor(_max)`, `m_max = _max`). -/
def BitArrayStorageExt_init (mx mem : Nat) : Nat := mem + bitarray_sizeFor mx

/-- The word pattern with the lowest `k` bits of the array set: word `i`
holds `min 64 (k - 64*i)` low ones.  This is the invariant shape reached
by `k` successive `setFirst()` calls on a fresh array. -/
def pat (k : Nat) : Nat → Nat := fun i => 2 ^ (min 64 (k - 64 * i)) - 1

/-- A concrete two-word array of capacity 128 with bits 0 and 1 set
(word 0 holds 3), used as a sample state. -/
def sampleState3 : BitArray := ⟨fun j => if j = 0 then 3 else 0, 0, 128, 2⟩

/-- A concrete two-word array of capacity 128 whose word 1 is all-ones and
word 0 is zero, used as a sample state. -/
def sampleStateTopFull : BitArray := ⟨fun j => if j = 1 then wordMax else 0, 0, 128, 2⟩

/-- A consistent bit-array state at the largest `uint32_t` capacity:
`max = 2^32 - 1`, `numSlots = numSlotsFor (2^32 - 1) = 2^26`, and only the
highest word (index `2^26 - 1`) nonzero — all-ones. -/
def hugeTopFullState : BitArray :=
  ⟨fun j => if j = 67108863 then wordMax else 0, 0, 4294967295, numSlotsFor 4294967295⟩

/-!  Helper lemmas about the loop scans and the word-level helpers. -/

/-- `scanNotFull` finds the first non-all-ones word of its scan window. -/
theorem scanNotFull_some (bits : Nat → Nat) (m : Nat) (hbit : bits m ≠ wordMax) :
    ∀ fuel start, start ≤ m → m < start + fuel →
      (∀ j, start ≤ j → j < m → bits j = wordMax) →
      scanNotFull bits start fuel = some m := by
  intro fuel
  induction fuel with
  | zero => intro start h1 h2 _; omega
  | succ f ih =>
    intro start h1 h2 hall
    simp only [scanNotFull]
    rcases Nat.eq_or_lt_of_le h1 with heq | hlt
    · subst heq
      rw [if_pos hbit]
    · rw [if_neg (by simpa using hall start (Nat.le_refl _) hlt)]
      exact ih (start + 1) hlt (by omega) (fun j hj1 hj2 => hall j (by omega) hj2)

/-- `scanNotFull` returns `none` when every scanned word is all-ones. -/
theorem scanNotFull_none (bits : Nat → Nat) :
    ∀ fuel start, (∀ j, start ≤ j → j < start + fuel → bits j = wordMax) →
      scanNotFull bits start fuel = none := by
  intro fuel
  induction fuel with
  | zero => intro start _; rfl
  | succ f ih =>
    intro start hall
    simp only [scanNotFull]
    rw [if_neg (by simpa using hall start (Nat.le_refl _) (by omega))]
    exact ih (start + 1) (fun j hj1 hj2 => hall j (by omega) (by omega))

/-- `scanDownNonzero` finds the highest nonzero word below its bound. -/
theorem scanDown_some (bits : Nat → Nat) (w : Nat) (hw : bits w ≠ 0) :
    ∀ n, w < n → (∀ j, w < j → j < n → bits j = 0) →
      scanDownNonzero bits n = some w := by
  intro n
  induction n with
  | zero => intro h _; omega
  | succ n ih =>
    intro h1 hall
    simp only [scanDownNonzero]
    rcases Nat.eq_or_lt_of_le (Nat.le_of_lt_succ h1) with heq | hlt
    · subst heq
      rw [if_pos hw]
    · rw [if_neg (by simpa using hall n hlt (Nat.lt_succ_self _))]
      exact ih hlt (fun j hj1 hj2 => hall j hj1 (by omega))

/-- `scanDownNonzero` returns `none` when every scanned word is zero. -/
theorem scanDown_none (bits : Nat → Nat) :
    ∀ n, (∀ j, j < n → bits j = 0) → scanDownNonzero bits n = none := by
  intro n
  induction n with
  | zero => intro _; rfl
  | succ n ih =>
    intro hall
    simp only [scanDownNonzero]
    rw [if_neg (by simpa using hall n (Nat.lt_succ_self _))]
    exact ih (fun j hj => hall j (by omega))

/-- `ctzAux` finds the first set bit of its scan window. -/
theorem ctzAux_spec (v p : Nat) (hp : (v >>> p) % 2 = 1) :
    ∀ fuel start, start ≤ p → p < start + fuel →
      (∀ j, start ≤ j → j < p → (v >>> j) % 2 = 0) →
      ctzAux v start fuel = p := by
  intro fuel
  induction fuel with
  | zero => intro start h1 h2 _; omega
  | succ f ih =>
    intro start h1 h2 hall
    simp only [ctzAux]
    rcases Nat.eq_or_lt_of_le h1 with heq | hlt
    · subst heq
      rw [if_pos hp]
    · rw [if_neg (by rw [hall start (Nat.le_refl _) hlt]; omega)]
      exact ih (start + 1) hlt (by omega) (fun j hj1 hj2 => hall j (by omega) hj2)

/-- `cnttz_u64` on a power of two below `2^64` is its exponent. -/
theorem cnttz_pow (p : Nat) (hp : p < 64) : cnttz_u64 (2 ^ p) = p := by
  unfold cnttz_u64
  apply ctzAux_spec
  · rw [Nat.shiftRight_eq_div_pow, Nat.div_self (Nat.pos_pow_of_pos p (by norm_num))]
  · exact Nat.zero_le p
  · omega
  · intro j _ hj
    rw [Nat.shiftRight_eq_div_pow, Nat.pow_div (by omega) (by norm_num)]
    have : p - j = (p - j - 1) + 1 := by omega
    rw [this, pow_succ, Nat.mul_mod_left]

/-- For capacities in `[1, 2^32)` the slot-count formula computes
`(m-1)/64 + 1`, which is `ceil(m/64)`. -/
theorem numSlotsFor_eq (m : Nat) (h1 : 1 ≤ m) (h2 : m < 2 ^ 32) :
    numSlotsFor m = (m - 1) / 64 + 1 := by
  unfold numSlotsFor
  have hm : (m + (2 ^ 32 - 1)) % 2 ^ 32 = m - 1 := by omega
  rw [hm, Nat.shiftRight_eq_div_pow]
  have h64 : (2 : Nat) ^ 6 = 64 := by norm_num
  rw [h64]
  omega

/-!  The `setFirst` progress invariant: after `k` calls on a fresh array the
words hold exactly the first `k` bits. -/

/-- A `pat` word is all-ones exactly when the word lies fully below `k`. -/
theorem pat_full_iff (k i : Nat) : pat k i = wordMax ↔ 64 * (i + 1) ≤ k := by
  unfold pat wordMax
  constructor
  · intro h
    by_contra hc
    have hmin : min 64 (k - 64 * i) = k - 64 * i := by omega
    rw [hmin] at h
    have hpow : (2 : Nat) ^ (k - 64 * i) < 2 ^ 64 :=
      Nat.pow_lt_pow_right (by norm_num) (by omega)
    omega
  · intro h
    have hmin : min 64 (k - 64 * i) = 64 := by omega
    rw [hmin]

/-- The boundary word of `pat k` holds the `k % 64` low ones. -/
theorem pat_eq_mod (k : Nat) : pat k (k / 64) = 2 ^ (k % 64) - 1 := by
  unfold pat
  have h : min 64 (k - 64 * (k / 64)) = k % 64 := by omega
  rw [h]

/-- Setting the bit above a run of low ones extends the run. -/
theorem ones_or_pow (p : Nat) : (2 ^ p - 1) ||| 2 ^ p = 2 ^ (p + 1) - 1 := by
  apply Nat.eq_of_testBit_eq
  intro j
  rw [Nat.testBit_or, Nat.testBit_two_pow_sub_one, Nat.testBit_two_pow_sub_one,
    Nat.testBit_two_pow]
  rw [← Bool.decide_or, decide_eq_decide]
  omega

/-- One `setFirst` call on the `pat k` state (with `k < max`) sets bit `k`,
returns `k`, and touches nothing else. -/
theorem setFirst_on_pat (M k : Nat) (h2 : M < 2 ^ 32) (hk : k < M)
    (s : BitArray) (hb : s.bits = pat k) (hm : s.m_max = M)
    (hn : s.m_numSlots = (M - 1) / 64 + 1) :
    (setFirst s).1.bits = pat (k + 1) ∧ (setFirst s).2 = k ∧
      (setFirst s).1.m_last = s.m_last ∧
      (setFirst s).1.m_max = M ∧ (setFirst s).1.m_numSlots = (M - 1) / 64 + 1 := by
  have hscan : scanNotFull s.bits 0 s.m_numSlots = some (k / 64) := by
    rw [hb, hn]
    apply scanNotFull_some
    · intro hfull
      rw [pat_full_iff] at hfull
      omega
    · exact Nat.zero_le _
    · have hdiv : k / 64 ≤ (M - 1) / 64 := Nat.div_le_div_right (by omega)
      omega
    · intro j _ hj
      rw [pat_full_iff]
      omega
  have hval : s.bits (k / 64) = 2 ^ (k % 64) - 1 := by rw [hb]; exact pat_eq_mod k
  have hge : 0 < (2 : Nat) ^ (k % 64) := Nat.pos_pow_of_pos _ (by norm_num)
  have hpk : (2 : Nat) ^ (k % 64) < 2 ^ 64 := Nat.pow_lt_pow_right (by norm_num) (by omega)
  have hrm : (s.bits (k / 64) + 1) % 2 ^ 64 = 2 ^ (k % 64) := by
    rw [hval]
    have he : 2 ^ (k % 64) - 1 + 1 = 2 ^ (k % 64) := by omega
    rw [he, Nat.mod_eq_of_lt hpk]
  refine ⟨?_, ?_, ?_, ?_, ?_⟩
  · simp only [setFirst, hscan, setRightmostBit, hrm]
    funext j
    simp only [writeWord]
    by_cases hj : j = k / 64
    · subst hj
      rw [if_pos rfl, hval, ones_or_pow]
      show _ = pat (k + 1) (k / 64)
      unfold pat
      have hmin : min 64 (k + 1 - 64 * (k / 64)) = k % 64 + 1 := by omega
      rw [hmin]
    · rw [if_neg hj, hb]
      show pat k j = pat (k + 1) j
      unfold pat
      have hmin : min 64 (k + 1 - 64 * j) = min 64 (k - 64 * j) := by
        have hne : j ≠ k / 64 := hj
        omega
      rw [hmin]
  · simp only [setFirst, hscan, setRightmostBit, hrm]
    rw [cnttz_pow _ (by omega), Nat.shiftLeft_eq]
    have h6 : (2 : Nat) ^ 6 = 64 := by norm_num
    rw [h6]
    have hidx : (k / 64 * 64 + k % 64) % 2 ^ 32 = k := by omega
    rw [hidx, hm, if_pos hk]
  · simp only [setFirst, hscan, setRightmostBit]
  · simp only [setFirst, hscan, setRightmostBit]
    exact hm
  · simp only [setFirst, hscan, setRightmostBit]
    exact hn

/-- After `k ≤ max` calls of `setFirst` starting from `reset`, the words
form the `pat k` pattern and the storage accessors are unchanged. -/
theorem stateAfter_inv (M : Nat) (h1 : 1 ≤ M) (h2 : M < 2 ^ 32) :
    ∀ k, k ≤ M →
      (stateAfter M k).bits = pat k ∧ (stateAfter M k).m_max = M ∧
        (stateAfter M k).m_numSlots = (M - 1) / 64 + 1 := by
  intro k
  induction k with
  | zero =>
    intro _
    refine ⟨?_, rfl, ?_⟩
    · funext i
      show (0 : Nat) = 2 ^ (min 64 (0 - 64 * i)) - 1
      have hmin : min 64 (0 - 64 * i) = 0 := by omega
      rw [hmin, pow_zero]
      rfl
    · exact numSlotsFor_eq M h1 h2
  | succ k ih =>
    intro hk1
    obtain ⟨hb, hm, hn⟩ := ih (by omega)
    obtain ⟨h1', h2', h3', h4', h5'⟩ := setFirst_on_pat M k h2 (by omega) _ hb hm hn
    exact ⟨h1', h4', h5'⟩

/-- On the full `pat max` state, `setFirst` returns `max`. -/
theorem setFirst_on_pat_M (M : Nat) (h1 : 1 ≤ M) (h2 : M < 2 ^ 32)
    (s : BitArray) (hb : s.bits = pat M) (hm : s.m_max = M)
    (hn : s.m_numSlots = (M - 1) / 64 + 1) :
    (setFirst s).2 = M := by
  by_cases hmod : M % 64 = 0
  · have hscan : scanNotFull s.bits 0 s.m_numSlots = none := by
      rw [hb, hn]
      apply scanNotFull_none
      intro j _ hj
      rw [pat_full_iff]
      omega
    simp only [setFirst, hscan]
    exact hm
  · have hscan : scanNotFull s.bits 0 s.m_numSlots = some (M / 64) := by
      rw [hb, hn]
      apply scanNotFull_some
      · intro hfull
        rw [pat_full_iff] at hfull
        omega
      · exact Nat.zero_le _
      · omega
      · intro j _ hj
        rw [pat_full_iff]
        omega
    have hval : s.bits (M / 64) = 2 ^ (M % 64) - 1 := by rw [hb]; exact pat_eq_mod M
    have hge : 0 < (2 : Nat) ^ (M % 64) := Nat.pos_pow_of_pos _ (by norm_num)
    have hpk : (2 : Nat) ^ (M % 64) < 2 ^ 64 := Nat.pow_lt_pow_right (by norm_num) (by omega)
    have hrm : (s.bits (M / 64) + 1) % 2 ^ 64 = 2 ^ (M % 64) := by
      rw [hval]
      have he : 2 ^ (M % 64) - 1 + 1 = 2 ^ (M % 64) := by omega
      rw [he, Nat.mod_eq_of_lt hpk]
    simp only [setFirst, hscan, setRightmostBit, hrm]
    rw [cnttz_pow _ (by omega), Nat.shiftLeft_eq]
    have h6 : (2 : Nat) ^ 6 = 64 := by norm_num
    rw [h6]
    have hidx : (M / 64 * 64 + M % 64) % 2 ^ 32 = M := by omega
    rw [hidx, hm, if_neg (lt_irrefl M)]

/-!  Counting lemmas relating `doCount`, `isSet` and `countTrue`. -/

/-- `isSet` reads exactly the `testBit` of the addressed word. -/
theorem isSet_eq_testBit (s : BitArray) (i : Nat) :
    isSet s i = (s.bits (i >>> 6)).testBit (i % 64) := by
  unfold isSet
  have h63 : i &&& 63 = i % 64 := by
    have h := Nat.and_pow_two_sub_one_eq_mod i 6
    norm_num at h
    exact h
  have hs : (1 : Nat) <<< (i % 64) = 2 ^ (i % 64) := by
    rw [Nat.shiftLeft_eq, one_mul]
  rw [h63, hs, Nat.and_two_pow]
  cases h : (s.bits (i >>> 6)).testBit (i % 64)
  · simp [h]
  · simp only [h, Bool.toNat_true, one_mul]
    simp only [decide_eq_true_eq]
    exact (Nat.pos_pow_of_pos (i % 64) (by norm_num)).ne

/-- Splitting a sum over `range (m + n)` at `m`. -/
theorem sum_range_add_nat (f : Nat → Nat) (m : Nat) :
    ∀ n, (∑ i ∈ Finset.range (m + n), f i) =
      (∑ i ∈ Finset.range m, f i) + ∑ j ∈ Finset.range n, f (m + j) := by
  intro n
  induction n with
  | zero => simp
  | succ n ih =>
    have hadd : m + (n + 1) = (m + n) + 1 := by omega
    rw [hadd, Finset.sum_range_succ, Finset.sum_range_succ, ih, Nat.add_assoc]

/-- The sum of per-word population counts over `n` words equals the number
of set bit positions below `64 * n`, counted through `isSet`. -/
theorem sum_pop_eq (s : BitArray) :
    ∀ n, (∑ ii ∈ Finset.range n, cntbits_u64 (s.bits ii)) =
      ∑ i ∈ Finset.range (64 * n), (if isSet s i then 1 else 0) := by
  intro n
  induction n with
  | zero => simp
  | succ n ih =>
    have h64 : 64 * (n + 1) = 64 * n + 64 := by ring
    have hword : cntbits_u64 (s.bits n) =
        ∑ j ∈ Finset.range 64, if isSet s (64 * n + j) then 1 else 0 := by
      unfold cntbits_u64
      apply Finset.sum_congr rfl
      intro b hb
      have hb' : b < 64 := Finset.mem_range.mp hb
      rw [isSet_eq_testBit]
      have e1 : (64 * n + b) >>> 6 = n := by
        rw [Nat.shiftRight_eq_div_pow]
        have h6 : (2 : Nat) ^ 6 = 64 := by norm_num
        rw [h6]
        omega
      have e2 : (64 * n + b) % 64 = b := by omega
      rw [e1, e2]
    rw [Finset.sum_range_succ, ih, h64,
      sum_range_add_nat (fun i => if isSet s i then 1 else 0) (64 * n) 64, hword]

/-- Cardinality of a filtered range as an indicator sum. -/
theorem card_filter_range_eq (p : Nat → Bool) :
    ∀ n, ((Finset.range n).filter (fun i => p i = true)).card =
      ∑ i ∈ Finset.range n, (if p i = true then 1 else 0) := by
  intro n
  induction n with
  | zero => rfl
  | succ n ih =>
    rw [Finset.sum_range_succ, Finset.range_succ, Finset.filter_insert]
    by_cases h : p n = true
    · rw [if_pos h, if_pos h]
      have hmem : n ∉ (Finset.range n).filter (fun i => p i = true) := by
        intro hmem
        exact absurd (Finset.mem_range.mp (Finset.mem_filter.mp hmem).1) (lt_irrefl n)
      rw [Finset.card_insert_of_not_mem hmem, ih]
    · rw [if_neg h, if_neg h, ih, Nat.add_zero]

/-!  The claims. -/

/-- C1 (code bug): the claim says that after `setRange(a, b)` every bit in
`[a, b]` reads set and bits outside are unchanged.  On the fresh 128-bit
array, `setRange(60, 70)` instead leaves bit 64 (inside the range) unset,
sets bit 70, sets bit 0 (outside the range, previously unset): the
`valBegin`/`valEnd` smears run in swapped directions and the bulk fill
covers `[begin>>6, end>>6)`, so the code sets `[0, 63] ∪ [70, 127]`, not
`[60, 70]`. -/
theorem c1_setRange_failing_eval :
    isSet (setRange (resetState 128) 60 70) 64 = false ∧
      isSet (setRange (resetState 128) 60 70) 70 = true ∧
      isSet (setRange (resetState 128) 60 70) 0 = true ∧
      isSet (resetState 128) 0 = false := by decide

/-- C2 (code bug): the claim says no operation ever sets a bit at index
`≥ max()` within the final word.  With `max() = 1`, the second `setFirst()`
call finds word 0 (value 1, not all-ones), and `setRightmostBit` ORs in
`bits[0] + 1 = 2`: word 0 becomes 3, i.e. bit 1 — an index `≥ max()` —
is now set (the clamp in `setRightmostBit` only affects the returned
index, not the store). -/
theorem c2_setFirst_overflow_eval :
    ((setFirst ((setFirst (resetState 1)).1)).1).bits 0 = 3 ∧
      isSet ((setFirst ((setFirst (resetState 1)).1)).1) 1 = true ∧
      (resetState 1).m_max = 1 := by decide

/-- C3 (confirmed): on a fresh array of capacity `M ∈ [1, 2^32)`, the
`(j+1)`-th `setFirst()` call (i.e. the call made after `j` previous calls)
returns `j` for every `j < M` — so the first `M` calls return
`0, 1, …, M-1` in order — and the `(M+1)`-th call returns `M`. -/
theorem c3_setFirst_sequence (M k : Nat) (h1 : 1 ≤ M) (h2 : M < 2 ^ 32) :
    (k < M → (setFirst (stateAfter M k)).2 = k) ∧
      (setFirst (stateAfter M M)).2 = M := by
  constructor
  · intro hk
    obtain ⟨hb, hm, hn⟩ := stateAfter_inv M h1 h2 k (by omega)
    exact (setFirst_on_pat M k h2 hk _ hb hm hn).2.1
  · obtain ⟨hb, hm, hn⟩ := stateAfter_inv M h1 h2 M (Nat.le_refl M)
    exact setFirst_on_pat_M M h1 h2 _ hb hm hn

/-- Witness for C3 at `M = 3`: the third call returns 2 and the fourth
call returns 3. -/
theorem c3_setFirst_sequence_witness :
    (setFirst (stateAfter 3 2)).2 = 2 ∧ (setFirst (stateAfter 3 3)).2 = 3 :=
  ⟨(c3_setFirst_sequence 3 2 (by decide) (by decide)).1 (by decide),
    (c3_setFirst_sequence 3 3 (by decide) (by decide)).2⟩

/-- C4 counterexample: the state reached from `reset` (capacity 1) by two
`setFirst()` calls — both precondition-free — has `doCount() = 2` although
only one index in `[0, max())` is set, because the second call dirtied
padding bit 1. -/
theorem c4_doCount_cex :
    doCount ((setFirst ((setFirst (resetState 1)).1)).1) = 2 ∧
      countTrue ((setFirst ((setFirst (resetState 1)).1)).1) = 1 := by decide

/-- C4 (corrected): for every state whose storage is consistent
(`numSlots = numSlotsFor max`, `1 ≤ max < 2^32`) and in which no bit at
index `≥ max()` is set, `doCount()` equals the number of indices
`i ∈ [0, max())` with `isSet(i)` true.  (The reachability assumption of
the original claim is not sufficient: see the counterexample.) -/
theorem c4_doCount_amended (s : BitArray)
    (hns : s.m_numSlots = numSlotsFor s.m_max)
    (h1 : 1 ≤ s.m_max) (h2 : s.m_max < 2 ^ 32)
    (hpad : ∀ i, s.m_max ≤ i → i < 64 * s.m_numSlots → isSet s i = false) :
    doCount s = countTrue s := by
  have hn : s.m_numSlots = (s.m_max - 1) / 64 + 1 := by
    rw [hns, numSlotsFor_eq _ h1 h2]
  have hle : s.m_max ≤ 64 * s.m_numSlots := by rw [hn]; omega
  unfold doCount
  rw [sum_pop_eq s s.m_numSlots]
  have hsplit : 64 * s.m_numSlots = s.m_max + (64 * s.m_numSlots - s.m_max) := by omega
  rw [hsplit, sum_range_add_nat (fun i => if isSet s i then 1 else 0) s.m_max
    (64 * s.m_numSlots - s.m_max)]
  have hzero : (∑ j ∈ Finset.range (64 * s.m_numSlots - s.m_max),
      (if isSet s (s.m_max + j) then 1 else 0)) = 0 := by
    apply Finset.sum_eq_zero
    intro j hj
    have hj' : j < 64 * s.m_numSlots - s.m_max := Finset.mem_range.mp hj
    rw [hpad (s.m_max + j) (by omega) (by omega)]
    simp
  rw [hzero, Nat.add_zero]
  have hbound : (∑ i ∈ Finset.range s.m_max, (if isSet s i then 1 else 0)) ≤ s.m_max := by
    calc (∑ i ∈ Finset.range s.m_max, (if isSet s i then 1 else 0))
        ≤ ∑ i ∈ Finset.range s.m_max, 1 := by
          apply Finset.sum_le_sum
          intro i _
          by_cases h : isSet s i = true
          · rw [if_pos h]
          · rw [if_neg h]; omega
      _ = s.m_max := by simp
  rw [Nat.mod_eq_of_lt (by omega)]
  unfold countTrue
  rw [card_filter_range_eq]

/-- Witness for C4 (amended) on the padding-clean two-word state with bits
0 and 1 set: `doCount` is 2 and indeed two indices are set. -/
theorem c4_doCount_amended_witness :
    doCount sampleState3 = 2 ∧ countTrue sampleState3 = 2 := by
  have h := c4_doCount_amended sampleState3 (by decide) (by decide) (by decide)
    (fun i hi1 hi2 => by
      have he : sampleState3.m_numSlots = 2 := rfl
      rw [he] at hi2
      have he2 : sampleState3.m_max = 128 := rfl
      rw [he2] at hi1
      exact absurd hi2 (by omega))
  exact ⟨h.trans (by decide), by decide⟩

/-- C5 (code bug): the claim says the cursor `m_last` — a word index —
always lies in `[0, numSlots()]`.  But `unsetRange` stores the *bit*
index `_begin` into `m_last` (and `setRange` similarly stores `_end`):
after `unsetRange(100, 100)` on the fresh 128-bit array (preconditions
`100 < max()` hold), `m_last = 100` while `numSlots() = 2`. -/
theorem c5_cursor_eval :
    (unsetRange (resetState 128) 100 100).m_last = 100 ∧
      (unsetRange (resetState 128) 100 100).m_numSlots = 2 ∧
      ¬(unsetRange (resetState 128) 100 100).m_last ≤
        (unsetRange (resetState 128) 100 100).m_numSlots := by decide

/-- C6 counterexample: on the fresh 128-bit array (cursor 0),
`setRange(0, 5)` touches a range covering the cursor, yet the new cursor
is 5, not `end + 1 = 6` as the claim states. -/
theorem c6_cursor_cex :
    ((0 : Nat) ≤ (resetState 128).m_last ∧ (resetState 128).m_last ≤ 5) ∧
      (setRange (resetState 128) 0 5).m_last ≠ 5 + 1 := by decide

/-- C6 (corrected): for every state and range `begin ≤ end < max()`, if
`begin ≤ cursor ≤ end` then `setRange(begin, end)` sets the cursor to
`end` (not `end + 1`), and otherwise leaves it unchanged. -/
theorem c6_cursor_amended (s : BitArray) (b e : Nat) (_hbe : b ≤ e)
    (_he : e < s.m_max) :
    (b ≤ s.m_last ∧ s.m_last ≤ e → (setRange s b e).m_last = e) ∧
      (¬(b ≤ s.m_last ∧ s.m_last ≤ e) → (setRange s b e).m_last = s.m_last) := by
  constructor
  · intro h
    simp only [setRange]
    rw [if_pos h]
  · intro h
    simp only [setRange]
    rw [if_neg h]

/-- Witness for C6 (amended): covered case at `(0, 5)` on the fresh
128-bit array, uncovered case at `(60, 70)`. -/
theorem c6_cursor_amended_witness :
    (setRange (resetState 128) 0 5).m_last = 5 ∧
      (setRange (resetState 128) 60 70).m_last = 0 :=
  ⟨(c6_cursor_amended (resetState 128) 0 5 (by decide) (by decide)).1 (by decide),
    (c6_cursor_amended (resetState 128) 60 70 (by decide) (by decide)).2 (by decide)⟩

/-- C7 counterexample: at the largest `uint32_t` capacity
(`max = 2^32 - 1`, `numSlots = 2^26`), if the highest word `w = 2^26 - 1`
is all-ones, `getLastSetBit()` returns `((w+1) << 6) mod 2^32 = 0`, not
`(w+1)*64 = 2^32` as the claim states for every such state — the
`uint32_t` shift wraps. -/
theorem c7_getLastSetBit_cex :
    getLastSetBit hugeTopFullState = 0 ∧ (67108863 + 1) * 64 = 4294967296 := by
  constructor
  · rfl
  · norm_num

/-- C7 (corrected): if the highest-indexed nonzero word `w` is all-ones
and `(w+1)*64` fits in `uint32_t` (i.e. `w + 1 < 2^26`, true for every
capacity up to `2^32 - 64`), `getLastSetBit()` returns `(w+1)*64`, the
index just past that word; and on an all-zero array it returns 0.  At
`w + 1 = 2^26` the returned value wraps to 0 (see the counterexample). -/
theorem c7_getLastSetBit_amended (s : BitArray) (w : Nat) :
    (w < s.m_numSlots → (∀ j, w < j → j < s.m_numSlots → s.bits j = 0) →
        s.bits w = wordMax → w + 1 < 2 ^ 26 →
        getLastSetBit s = (w + 1) * 64) ∧
      ((∀ j, j < s.m_numSlots → s.bits j = 0) → getLastSetBit s = 0) := by
  constructor
  · intro hw hab hall hfit
    have hnz : s.bits w ≠ 0 := by
      rw [hall]; unfold wordMax; norm_num
    have hscan := scanDown_some s.bits w hnz s.m_numSlots hw hab
    simp only [getLastSetBit, hscan]
    rw [if_pos hall, Nat.shiftLeft_eq]
    have h6 : (2 : Nat) ^ 6 = 64 := by norm_num
    rw [h6]
    omega
  · intro hz
    have hscan := scanDown_none s.bits s.m_numSlots hz
    simp only [getLastSetBit, hscan]

/-- Witness for C7 (amended): on the two-word state whose top word is
all-ones the result is `2 * 64 = 128`, and on the fresh 64-bit array it
is 0. -/
theorem c7_getLastSetBit_amended_witness :
    getLastSetBit sampleStateTopFull = 128 ∧ getLastSetBit (resetState 64) = 0 := by
  constructor
  · have h := (c7_getLastSetBit_amended sampleStateTopFull 1).1 (by decide)
      (fun j h1 h2 => by
        have he : sampleStateTopFull.m_numSlots = 2 := rfl
        rw [he] at h2
        exact absurd h2 (by omega))
      (by decide) (by decide)
    exact h.trans (by norm_num)
  · exact (c7_getLastSetBit_amended (resetState 64) 0).2 (fun j hj => rfl)

/-- C8 counterexample: in `uint32_t` arithmetic `numSlotsFor(0)` is
`((0-1)>>6)+1 = 2^26 = 67108864`, not `ceil(0/64) = 0`: the unsigned
subtraction wraps at the boundary case `max = 0` named by the claim. -/
theorem c8_numSlots_cex :
    numSlotsFor 0 = 67108864 ∧ (0 + 63) / 64 = 0 := by decide

/-- C8 (corrected): for every `max` with `1 ≤ max < 2^32`,
`numSlotsFor(max)` — the shared formula of `BitArrayStorageExt`,
`BitArrayStorage` and `BitArrayStorageT::NumSlots` — equals
`ceil(max/64)` exactly; at `max = 0` the `uint32_t` wrap yields `2^26`
instead (see the counterexample). -/
theorem c8_numSlots_amended (m : Nat) (h1 : 1 ≤ m) (h2 : m < 2 ^ 32) :
    numSlotsFor m = (m + 63) / 64 := by
  rw [numSlotsFor_eq m h1 h2]
  omega

/-- Witness for C8 (amended) at the word-multiple boundary `max = 64` and
at `max = 65`. -/
theorem c8_numSlots_amended_witness :
    numSlotsFor 64 = 1 ∧ numSlotsFor 65 = 2 :=
  ⟨(c8_numSlots_amended 64 (by decide) (by decide)).trans (by norm_num),
    (c8_numSlots_amended 65 (by decide) (by decide)).trans (by norm_num)⟩

/-- C9 counterexample: at capacity `max = 0` the bit array's external
`init(0, mem)` returns `mem + numSlotsFor(0)*8 = mem + 2^29`, not
`mem + ceil(0/64)*8 = mem`: the claim fails for `max = 0`. -/
theorem c9_init_cex :
    BitArrayStorageExt_init 0 0 = 536870912 ∧ ((0 + 63) / 64) * 8 = 0 := by decide

/-- C9 (corrected): the sparse set's external `init` places the indices
region immediately after the `2*max`-byte values region and returns
`mem + 2*max*2` for every `uint16_t` capacity; the bit array's external
`init` returns `mem + ceil(max/64)*8` for every capacity `1 ≤ max < 2^32`
(at `max = 0` it returns `mem + 2^29`, see the counterexample). -/
theorem c9_init_amended (maxS memS maxB memB : Nat) :
    (maxS < 2 ^ 16 →
      (Set_initExt maxS memS).2.1 = (Set_initExt maxS memS).1 + 2 * maxS ∧
        (Set_initExt maxS memS).2.2 = memS + 2 * maxS * 2) ∧
      (1 ≤ maxB → maxB < 2 ^ 32 →
        BitArrayStorageExt_init maxB memB = memB + ((maxB + 63) / 64) * 8) := by
  constructor
  · intro hS
    constructor
    · rfl
    · show memS + Set_sizeFor maxS = memS + 2 * maxS * 2
      unfold Set_sizeFor Set_SizePerElement
      congr 1
      omega
  · intro h1 h2
    show memB + bitarray_sizeFor maxB = memB + ((maxB + 63) / 64) * 8
    unfold bitarray_sizeFor
    rw [numSlotsFor_eq maxB h1 h2]
    congr 1
    omega

/-- Witness for C9 (amended): sparse set of capacity 8 in an arena at
byte 100, bit array of capacity 128 in an arena at byte 1000. -/
theorem c9_init_amended_witness :
    (Set_initExt 8 100).2.1 = 116 ∧ (Set_initExt 8 100).2.2 = 132 ∧
      BitArrayStorageExt_init 128 1000 = 1016 := by
  have h := c9_init_amended 8 100 128 1000
  refine ⟨?_, ?_, ?_⟩
  · exact ((h.1 (by decide)).1).trans (by decide)
  · exact ((h.1 (by decide)).2).trans (by decide)
  · exact (h.2 (by decide) (by decide)).trans (by decide)

/-- C10 (confirmed): `destroy()` releases at most once for both
components.  For `dm::Set`: calling `destroy` twice performs no release
on the second call and leaves the state unchanged; on an owned instance
(`m_cleanup` true) one `destroy` nulls the buffer pointer; on a
never-initialized instance (`m_values` null) `destroy` is a no-op with
no release.  For `dm::ng::BitArrayStorage`: the same, where one
`destroy` always leaves `m_bits` null. -/
theorem c10_destroy_once (s : SetState) (b : BitArrayStorageSt) :
    ((Set_destroy (Set_destroy s).1).2 = false ∧
        (Set_destroy (Set_destroy s).1).1 = (Set_destroy s).1) ∧
      (s.m_cleanup = true → (Set_destroy s).1.m_values = none) ∧
      (s.m_values = none → Set_destroy s = (s, false)) ∧
      ((BitArrayStorage_destroy (BitArrayStorage_destroy b).1).2 = false ∧
        (BitArrayStorage_destroy (BitArrayStorage_destroy b).1).1 =
          (BitArrayStorage_destroy b).1) ∧
      ((BitArrayStorage_destroy b).1.m_bits = none) ∧
      (b.m_bits = none → BitArrayStorage_destroy b = (b, false)) := by
  refine ⟨⟨?_, ?_⟩, ?_, ?_, ⟨?_, ?_⟩, ?_, ?_⟩
  · by_cases hc : s.m_cleanup = true ∧ ¬s.m_values = none
    · simp [Set_destroy, hc]
    · simp [Set_destroy, hc]
  · by_cases hc : s.m_cleanup = true ∧ ¬s.m_values = none
    · simp [Set_destroy, hc]
    · simp [Set_destroy, hc]
  · intro hcl
    by_cases hv : s.m_values = none
    · simp [Set_destroy, hcl, hv]
    · simp [Set_destroy, hcl, hv]
  · intro hv
    simp [Set_destroy, hv]
  · by_cases hbn : b.m_bits = none
    · simp [BitArrayStorage_destroy, hbn]
    · simp [BitArrayStorage_destroy, hbn]
  · by_cases hbn : b.m_bits = none
    · simp [BitArrayStorage_destroy, hbn]
    · simp [BitArrayStorage_destroy, hbn]
  · by_cases hbn : b.m_bits = none
    · simp [BitArrayStorage_destroy, hbn]
    · simp [BitArrayStorage_destroy, hbn]
  · intro hbn
    simp [BitArrayStorage_destroy, hbn]

/-- Witness for C10: an initialized owned set, a never-initialized set,
and a never-initialized bit-array storage. -/
theorem c10_destroy_once_witness :
    (Set_destroy (⟨some 100, some 200, true⟩ : SetState)).1.m_values = none ∧
      Set_destroy (⟨none, none, false⟩ : SetState) = (⟨none, none, false⟩, false) ∧
      BitArrayStorage_destroy (⟨none, 0, 0⟩ : BitArrayStorageSt) = (⟨none, 0, 0⟩, false) := by
  refine ⟨?_, ?_, ?_⟩
  · exact (c10_destroy_once ⟨some 100, some 200, true⟩ ⟨none, 0, 0⟩).2.1 rfl
  · exact (c10_destroy_once ⟨none, none, false⟩ ⟨none, 0, 0⟩).2.2.1 rfl
  · exact (c10_destroy_once ⟨none, none, false⟩ ⟨none, 0, 0⟩).2.2.2.2.2 rfl

end DM
